import Mathlib

/-!
Verification of a cookie-log scanner (`solution.py`).

The program reads a log file whose first line is a header and whose remaining
lines are `cookie,timestamp` records sorted by timestamp descending, locates
the block of records whose date equals a query date using `bisect.bisect_left`
on the reversed line list, counts cookie occurrences in that block by a
backward scan, and prints every key of the resulting `Counter`, in insertion
order, whose count equals the maximum count, stopping at the first key whose
count differs.

The embedding below models lines as lists of characters, Python exceptions as
`Option`/dedicated result constructors, and `datetime.datetime.strptime` for
the two fixed format strings used by the program (`"%Y-%m-%dT%H:%M:%S%z"` and
`"%Y-%m-%d"`) following CPython's `_strptime` regex semantics, including the
ordered alternations with backtracking and the validation performed by the
`datetime` constructors.
-/

namespace QuantcastLog

/-- A raw line of the file, as a list of characters. -/
abbrev Line := List Char

/-- The date component of a parsed `datetime`, as produced by `.date()`. -/
structure Date where
  year : Nat
  month : Nat
  day : Nat
deriving DecidableEq, Repr

instance : Inhabited Date := ⟨⟨0, 0, 0⟩⟩

/-- Python `datetime.date` comparison: lexicographic on (year, month, day). -/
def dateLt (a b : Date) : Bool :=
  decide (a.year < b.year) ||
    (decide (a.year = b.year) &&
      (decide (a.month < b.month) ||
        (decide (a.month = b.month) && decide (a.day < b.day))))

/-- Numeric value of a digit character. -/
def digitVal (c : Char) : Nat := c.toNat - 48

/-- ASCII whitespace as removed by Python `str.strip()`. -/
def isSpaceChar (c : Char) : Bool :=
  c.toNat = 32 || c.toNat = 9 || c.toNat = 10 || c.toNat = 13 ||
    c.toNat = 11 || c.toNat = 12

/-- Python `str.strip()`: drop leading and trailing whitespace. -/
def stripChars (l : Line) : Line :=
  ((l.dropWhile isSpaceChar).reverse.dropWhile isSpaceChar).reverse

/-- Python `str.split(",")`: split on every comma; `""` yields `[""]`. -/
def splitOnComma : Line → List Line
  | [] => [[]]
  | c :: rest =>
    let r := splitOnComma rest
    if c = ',' then [] :: r
    else
      match r with
      | f :: fs => (c :: f) :: fs
      | [] => [[c]]

/-- Try each candidate in order, returning the first for which the
continuation succeeds. This realizes regex alternation with backtracking. -/
def firstSome : List α → (α → Option β) → Option β
  | [], _ => none
  | a :: as, f =>
    match f a with
    | some b => some b
    | none => firstSome as f

/-- Match a single literal character. -/
def expectChar (c : Char) : Line → Option Line
  | [] => none
  | a :: rest => if a = c then some rest else none

/-- Match the literal `T` of the timestamp format. CPython compiles the
format regex with `IGNORECASE`, so a lowercase `t` also matches. -/
def expectT : Line → Option Line
  | [] => none
  | a :: rest => if a = 'T' ∨ a = 't' then some rest else none

/-- CPython `%Y`: exactly four digits. -/
def parseY : Line → Option (Nat × Line)
  | a :: b :: c :: d :: rest =>
    if a.isDigit ∧ b.isDigit ∧ c.isDigit ∧ d.isDigit then
      some (digitVal a * 1000 + digitVal b * 100 + digitVal c * 10 + digitVal d, rest)
    else none
  | _ => none

/-- CPython `%m`: the ordered regex alternation `1[0-2]|0[1-9]|[1-9]`. -/
def mCandidates : Line → List (Nat × Line)
  | [] => []
  | [a] => if '1' ≤ a ∧ a ≤ '9' then [(digitVal a, [])] else []
  | a :: b :: rest =>
    (if a = '1' ∧ '0' ≤ b ∧ b ≤ '2' then [(10 + digitVal b, rest)] else []) ++
    (if a = '0' ∧ '1' ≤ b ∧ b ≤ '9' then [(digitVal b, rest)] else []) ++
    (if '1' ≤ a ∧ a ≤ '9' then [(digitVal a, b :: rest)] else [])

/-- CPython `%d`: the ordered regex alternation `3[01]|[12]\d|0[1-9]|[1-9]`. -/
def dCandidates : Line → List (Nat × Line)
  | [] => []
  | [a] => if '1' ≤ a ∧ a ≤ '9' then [(digitVal a, [])] else []
  | a :: b :: rest =>
    (if a = '3' ∧ ('0' = b ∨ b = '1') then [(30 + digitVal b, rest)] else []) ++
    (if ('1' = a ∨ a = '2') ∧ b.isDigit then [(10 * digitVal a + digitVal b, rest)] else []) ++
    (if a = '0' ∧ '1' ≤ b ∧ b ≤ '9' then [(digitVal b, rest)] else []) ++
    (if '1' ≤ a ∧ a ≤ '9' then [(digitVal a, b :: rest)] else [])

/-- CPython `%H`: the ordered regex alternation `2[0-3]|[0-1]\d|\d`. -/
def hCandidates : Line → List (Nat × Line)
  | [] => []
  | [a] => if a.isDigit then [(digitVal a, [])] else []
  | a :: b :: rest =>
    (if a = '2' ∧ '0' ≤ b ∧ b ≤ '3' then [(20 + digitVal b, rest)] else []) ++
    (if (a = '0' ∨ a = '1') ∧ b.isDigit then [(10 * digitVal a + digitVal b, rest)] else []) ++
    (if a.isDigit then [(digitVal a, b :: rest)] else [])

/-- CPython `%M`: the ordered regex alternation `[0-5]\d|\d`. -/
def minuteCandidates : Line → List (Nat × Line)
  | [] => []
  | [a] => if a.isDigit then [(digitVal a, [])] else []
  | a :: b :: rest =>
    (if '0' ≤ a ∧ a ≤ '5' ∧ b.isDigit then [(10 * digitVal a + digitVal b, rest)] else []) ++
    (if a.isDigit then [(digitVal a, b :: rest)] else [])

/-- CPython `%S`: the ordered regex alternation `6[0-1]|[0-5]\d|\d`. -/
def sCandidates : Line → List (Nat × Line)
  | [] => []
  | [a] => if a.isDigit then [(digitVal a, [])] else []
  | a :: b :: rest =>
    (if a = '6' ∧ ('0' = b ∨ b = '1') then [(60 + digitVal b, rest)] else []) ++
    (if '0' ≤ a ∧ a ≤ '5' ∧ b.isDigit then [(10 * digitVal a + digitVal b, rest)] else []) ++
    (if a.isDigit then [(digitVal a, b :: rest)] else [])

/-- The pieces of a numeric UTC-offset match of CPython `%z`:
`[+-]\d\d:?[0-5]\d(:?[0-5]\d(\.\d{1,6})?)?`. `sec` records whether the
optional seconds group was matched with its optional colon, `fracDigits`
the (up to six) fraction digits. -/
structure ZRaw where
  neg : Bool
  hh : Nat
  colon1 : Bool
  mm : Nat
  sec : Option (Bool × Nat)
  fracDigits : List Nat
deriving DecidableEq, Repr

/-- A `%z` match: either the literal `Z` (case-sensitive in CPython's
pattern) or a numeric offset. -/
inductive ZVal where
  | utcZ : ZVal
  | num : ZRaw → ZVal
deriving DecidableEq, Repr

/-- Greedily take at most `n` digits (for the regex `\d{1,6}`). -/
def takeDigits : Nat → Line → (List Nat × Line)
  | 0, l => ([], l)
  | _ + 1, [] => ([], [])
  | n + 1, c :: rest =>
    if c.isDigit then
      let (ds, l) := takeDigits n rest
      (digitVal c :: ds, l)
    else ([], c :: rest)

/-- Parse the optional fraction `(\.\d{1,6})?` after the seconds. -/
def parseFrac : Line → (List Nat × Line)
  | '.' :: c :: rest =>
    if c.isDigit then
      let (ds, l) := takeDigits 5 rest
      (digitVal c :: ds, l)
    else ([], '.' :: c :: rest)
  | l => ([], l)

/-- Parse the optional seconds group `(:?[0-5]\d(\.\d{1,6})?)?` of `%z`.
The group is matched greedily; if its body does not fit, it is skipped. -/
def parseZSeconds (l : Line) : (Option (Bool × Nat) × List Nat × Line) :=
  let (colon2, l1) :=
    match l with
    | ':' :: rest => (true, rest)
    | _ => (false, l)
  match l1 with
  | a :: b :: rest =>
    if '0' ≤ a ∧ a ≤ '5' ∧ b.isDigit then
      let (ds, l2) := parseFrac rest
      (some (colon2, 10 * digitVal a + digitVal b), ds, l2)
    else (none, [], l)
  | _ => (none, [], l)

/-- CPython `%z`: `[+-]\d\d:?[0-5]\d(:?[0-5]\d(\.\d{1,6})?)?|(?-i:Z)`. -/
def parseZ : Line → Option (ZVal × Line)
  | [] => none
  | c :: cs =>
    if c = 'Z' then some (.utcZ, cs)
    else if c = '+' ∨ c = '-' then
      match cs with
      | a :: b :: cs1 =>
        if a.isDigit ∧ b.isDigit then
          let hh := 10 * digitVal a + digitVal b
          let (colon1, cs2) :=
            match cs1 with
            | ':' :: rest => (true, rest)
            | _ => (false, cs1)
          match cs2 with
          | m1 :: m2 :: cs3 =>
            if '0' ≤ m1 ∧ m1 ≤ '5' ∧ m2.isDigit then
              let (sec, ds, cs4) := parseZSeconds cs3
              some (.num ⟨c = '-', hh, colon1, 10 * digitVal m1 + digitVal m2, sec, ds⟩, cs4)
            else none
          | _ => none
        else none
      | _ => none
    else none

/-- Value in microseconds of the (padded) fraction digits, as computed by
`_strptime` after padding to six digits. -/
def fracMicros (ds : List Nat) : Nat :=
  (ds.foldl (fun acc d => acc * 10 + d) 0) * 10 ^ (6 - ds.length)

/-- Magnitude of a numeric `%z` offset in microseconds. -/
def zOffsetMicros (z : ZRaw) : Nat :=
  (z.hh * 3600 + z.mm * 60 + (z.sec.map (·.2)).getD 0) * 1000000 + fracMicros z.fracDigits

/-- Whether the `%z` match survives `_strptime`'s conversion to a `timezone`:
colons must be used consistently (`+HH:MMSS` raises "Inconsistent use of :",
`+HHMM:SS` fails on `int(":S")`), and the offset must be strictly less than
24 hours in magnitude (`datetime.timezone` rejects anything else). -/
def zOk : ZVal → Bool
  | .utcZ => true
  | .num r =>
    (match r.sec with
     | some (c2, _) => decide (r.colon1 = c2)
     | none => true) &&
    decide (zOffsetMicros r < 86400000000)

/-- Gregorian leap year, as used by `datetime`. -/
def isLeap (y : Nat) : Bool :=
  decide (y % 4 = 0) && (decide (y % 100 ≠ 0) || decide (y % 400 = 0))

/-- Number of days in a month, as used by `datetime.date`. -/
def daysInMonth (y m : Nat) : Nat :=
  if m = 2 then (if isLeap y then 29 else 28)
  else if m = 4 ∨ m = 6 ∨ m = 9 ∨ m = 11 then 30
  else 31

/-- Validation performed by the `datetime.date` constructor. -/
def validYmd (y m d : Nat) : Bool :=
  decide (1 ≤ y) && decide (y ≤ 9999) && decide (1 ≤ m) && decide (m ≤ 12) &&
    decide (1 ≤ d) && decide (d ≤ daysInMonth y m)

/-- Regex match of the format `"%Y-%m-%d"` against a prefix of the input,
returning the first match in CPython's backtracking order together with the
unconsumed remainder. -/
def matchYmd (cs : Line) : Option (Nat × Nat × Nat × Line) :=
  (parseY cs).bind fun yc =>
  (expectChar '-' yc.2).bind fun cs1 =>
  firstSome (mCandidates cs1) fun mc =>
  (expectChar '-' mc.2).bind fun cs2 =>
  firstSome (dCandidates cs2) fun dc =>
  some (yc.1, mc.1, dc.1, dc.2)

/-- Python `datetime.datetime.strptime(s, "%Y-%m-%d").date()`: `none` models
the `ValueError` raised on a failed regex match, on unconverted trailing
data, or by the `datetime` constructor. -/
def parseDateArg (cs : Line) : Option Date :=
  match matchYmd cs with
  | some (y, m, d, []) => if validYmd y m d then some ⟨y, m, d⟩ else none
  | _ => none

/-- All parsed fields of a timestamp match. -/
structure TsParts where
  y : Nat
  m : Nat
  d : Nat
  hh : Nat
  mm : Nat
  ss : Nat
  z : ZVal
deriving DecidableEq, Repr

/-- Regex match of the format `"%Y-%m-%dT%H:%M:%S%z"` against a prefix of
the input, in CPython's backtracking order. -/
def matchTs (cs : Line) : Option (TsParts × Line) :=
  (parseY cs).bind fun yc =>
  (expectChar '-' yc.2).bind fun cs1 =>
  firstSome (mCandidates cs1) fun mc =>
  (expectChar '-' mc.2).bind fun cs2 =>
  firstSome (dCandidates cs2) fun dc =>
  (expectT dc.2).bind fun cs3 =>
  firstSome (hCandidates cs3) fun hc =>
  (expectChar ':' hc.2).bind fun cs4 =>
  firstSome (minuteCandidates cs4) fun minc =>
  (expectChar ':' minc.2).bind fun cs5 =>
  firstSome (sCandidates cs5) fun sc =>
  (parseZ sc.2).bind fun zc =>
  some (⟨yc.1, mc.1, dc.1, hc.1, minc.1, sc.1, zc.1⟩, zc.2)

/-- Validation performed by the `datetime.datetime` constructor on the
matched fields (the regex already bounds `H ≤ 23` and `M ≤ 59`, but `%S`
admits the leap seconds 60 and 61, which the constructor rejects). -/
def validTs (t : TsParts) : Bool :=
  validYmd t.y t.m t.d && decide (t.hh ≤ 23) && decide (t.mm ≤ 59) &&
    decide (t.ss ≤ 59) && zOk t.z

/-- Python `datetime.datetime.strptime(s, TIMESTAMP_FORMAT).date()` where
`TIMESTAMP_FORMAT = "%Y-%m-%dT%H:%M:%S%z"`: `none` models `ValueError`.
Note that `.date()` returns the parsed calendar date; the UTC offset is not
applied to it. -/
def parseTsDate (cs : Line) : Option Date :=
  match matchTs cs with
  | some (t, []) => if validTs t then some ⟨t.y, t.m, t.d⟩ else none
  | _ => none

/-- The key function passed to `bisect.bisect_left`:
`datetime.datetime.strptime(x.split(",")[1].strip(), TIMESTAMP_FORMAT).date()`.
`none` models an exception: `IndexError` when the raw line has fewer than two
comma-separated fields, `ValueError` when the timestamp does not parse.  Note
that a line with more than two fields is accepted here as long as its second
field parses. -/
def bisectKey (l : Line) : Option Date :=
  match (splitOnComma l).get? 1 with
  | none => none
  | some f => parseTsDate (stripChars f)

/-- Parsing of one line inside the backward scan:
`cookie, timestamp = lines[i].strip().split(",")` followed by
`datetime.datetime.strptime(timestamp, TIMESTAMP_FORMAT).date()`.
`none` models the `ValueError` raised when the stripped line does not split
into exactly two fields or when the timestamp does not parse. -/
def scanParse (l : Line) : Option (Line × Date) :=
  match splitOnComma (stripChars l) with
  | [cookie, ts] => (parseTsDate ts).map fun d => (cookie, d)
  | _ => none

/-- A `collections.Counter` built by the scan: an insertion-ordered
association list with one entry per key. -/
abbrev Counter := List (Line × Nat)

/-- Dictionary lookup `counts[cookie]` (a missing key reads as 0 in a
`Counter`). -/
def counterGet : Counter → Line → Nat
  | [], _ => 0
  | (k1, c) :: rest, k => if k1 = k then c else counterGet rest k

/-- The update `seen[cookie] += 1`: an existing key keeps its position, a new
key is appended at the end (Python dicts preserve insertion order). -/
def incr : Counter → Line → Counter
  | [], k => [(k, 1)]
  | (k1, c) :: rest, k => if k1 = k then (k1, c + 1) :: rest else (k1, c) :: incr rest k

/-- The single element returned by `counts.most_common(1)`, or `none` for an
empty counter (in which case indexing `[0]` raises `IndexError`).
`heapq.nlargest(1, ...)` is `max` with ties resolved to the first element. -/
def most_common1 : Counter → Option (Line × Nat)
  | [] => none
  | kv :: rest => some (rest.foldl (fun acc x => if x.2 > acc.2 then x else acc) kv)

/-- The loop of `bisect.bisect_left(a, x, 0, len(a), key)`, with an explicit
structural fuel so that the definition computes; the loop shrinks `hi - lo`
at every iteration, so any fuel of at least `hi - lo` yields the loop's
behaviour (`bisectGoF_congr` below).  `none` models an exception raised by
the key function on a probed element.  Only probed elements are ever
parsed. -/
def bisectGoF (a : List Line) (x : Date) : Nat → Nat → Nat → Option Nat
  | 0, lo, _ => some lo
  | fuel + 1, lo, hi =>
    if lo < hi then
      match bisectKey (a.getD ((lo + hi) / 2) []) with
      | none => none
      | some dmid =>
        if dateLt dmid x then bisectGoF a x fuel ((lo + hi) / 2 + 1) hi
        else bisectGoF a x fuel lo ((lo + hi) / 2)
    else some lo

/-- `bisect.bisect_left(a, x, lo, hi, key)` with exceptions propagated. -/
def bisectGo (a : List Line) (x : Date) (lo hi : Nat) : Option Nat :=
  bisectGoF a x (hi - lo) lo hi

/-- The backward scan `for i in range(len(lines) - index - 1, -1, -1)`:
starting at index `i` and moving toward 0, parse each line (`none` on a
parse failure), stop at the first line whose date differs from `x`, and
count the key of every other line. -/
def scanFrom (lines : List Line) (x : Date) : Nat → Counter → Option Counter
  | 0, seen =>
    match scanParse (lines.getD 0 []) with
    | none => none
    | some (cookie, d) => if x ≠ d then some seen else some (incr seen cookie)
  | i + 1, seen =>
    match scanParse (lines.getD (i + 1) []) with
    | none => none
    | some (cookie, d) =>
      if x ≠ d then some seen else scanFrom lines x i (incr seen cookie)

/-- The function `parse_file`, applied to the list of raw file lines
(header included).  `none` models any uncaught exception: `StopIteration`
on an empty file, an exception from the bisect key function, or a parse
failure inside the scan loop.  When the binary search returns `len(lines)`
the loop `range(-1, -1, -1)` is empty and the counter stays empty. -/
def parse_file (fileLines : List Line) (x : Date) : Option Counter :=
  match fileLines with
  | [] => none
  | _header :: lines =>
    match bisectGo lines.reverse x 0 lines.reverse.length with
    | none => none
    | some index =>
      if index < lines.length then scanFrom lines x (lines.length - index - 1) []
      else some []

/-- The printing loop of `__main__`: iterate over the counter's keys in
insertion order, print a key whose looked-up count equals `high`, and stop
at the first key whose count differs. -/
def printLoop (full : Counter) (high : Nat) : Counter → List Line
  | [] => []
  | (k, _) :: rest => if counterGet full k = high then k :: printLoop full high rest else []

/-- Observable outcome of one invocation. `invalidDate msg` is exit code 1
with `msg` on stderr; `parseError` is an uncaught exception inside
`parse_file`; `emptyResult` is the uncaught `IndexError` from
`counts.most_common(1)[0]` on an empty counter; `success` lists the lines
printed to stdout. -/
inductive RunResult where
  | invalidDate : Line → RunResult
  | parseError : RunResult
  | emptyResult : RunResult
  | success : List Line → RunResult
deriving DecidableEq, Repr

/-- The `__main__` block after the date argument has been parsed. -/
def runOnLines (fileLines : List Line) (x : Date) : RunResult :=
  match parse_file fileLines x with
  | none => .parseError
  | some counts =>
    match most_common1 counts with
    | none => .emptyResult
    | some kv => .success (printLoop counts kv.2 counts)

/-- The stderr message printed by `parse_args` for an unparsable date. -/
def invalidDateMsg (dateArg : Line) : Line :=
  "Error: Invalid date format '".data ++ dateArg ++ "'. Expected a YYYY-MM-DD.".data

/-- The whole program: `parse_args` (date validation part) followed by the
`__main__` block. -/
def runProgram (fileLines : List Line) (dateArg : Line) : RunResult :=
  match parseDateArg dateArg with
  | none => .invalidDate (invalidDateMsg dateArg)
  | some d => runOnLines fileLines d

/-- Date of a line as seen by the scan (only meaningful when the line is
well-formed). -/
def lineDate (l : Line) : Date :=
  match scanParse l with
  | some (_, d) => d
  | none => ⟨0, 0, 0⟩

/-- A data line is well-formed when the scan parses it and the bisect key
function extracts the same date from it (for an actual `cookie,timestamp`
record both read the same timestamp field). -/
def wfLineB (l : Line) : Bool :=
  match scanParse l, bisectKey l with
  | some (_, d), some d1 => decide (d = d1)
  | _, _ => false

/-- The input precondition: parsed dates are sorted descending (no earlier
date appears before a later one). -/
def sortedDescB : List Date → Bool
  | [] => true
  | d :: rest => rest.all (fun d1 => !dateLt d d1) && sortedDescB rest

/-- Modelled from the spec's testable property: the count a full
unconditional linear scan of all data lines, filtered to the query date,
assigns to key `k`. -/
def linearScanCount (lines : List Line) (x : Date) (k : Line) : Nat :=
  lines.countP fun l => decide (scanParse l = some (k, x))

/-- Number of indices `j ∈ [a, a + b)` whose line carries key `k` and date
`x`. -/
def cntRange (lines : List Line) (x : Date) (k : Line) (a b : Nat) : Nat :=
  (List.range' a b).countP fun j => decide (scanParse (lines.getD j []) = some (k, x))

/-- Whether the line at index `j` parses and matches the query date. -/
def scanMatches (lines : List Line) (x : Date) (j : Nat) : Bool :=
  match scanParse (lines.getD j []) with
  | some (_, d) => decide (d = x)
  | none => false

/-- The lowest index still counted by a backward scan starting at `i`: the
scan stops right after the largest index `≤ i` that does not match (and
counts nothing when that index is `i` itself). -/
def stopAt (lines : List Line) (x : Date) : Nat → Nat
  | 0 => if scanMatches lines x 0 then 0 else 1
  | i + 1 => if scanMatches lines x (i + 1) then stopAt lines x i else i + 2

/-- Membership test used for the amended C6: the bisect key of the line, if
it parses at all, is not earlier than the query date. -/
def bisectKeyNotLt (x : Date) (l : Line) : Bool :=
  match bisectKey l with
  | some d => !dateLt d x
  | none => true

/-- Membership test used for the amended C6: the line is either malformed for
the scan or parses with exactly the query date. -/
def scanNoneOrDate (x : Date) (l : Line) : Bool :=
  match scanParse l with
  | none => true
  | some kd => decide (kd.2 = x)

/-- The header line of the specification's example log. -/
def exampleHeader : Line := "Cookie,Timestamp".data

/-- The data lines of the specification's example log. -/
def exampleLines : List Line :=
  ["AtY0laUfhglK3lC7,2018-12-09T14:19:00+0000".data,
   "SAZuXPGUrfbcn5UA,2018-12-09T10:13:00+0000".data,
   "5UAVanZf6UtGyKVS,2018-12-09T07:25:00+0000".data,
   "AtY0laUfhglK3lC7,2018-12-09T06:19:00+0000".data,
   "SAZuXPGUrfbcn5UA,2018-12-08T22:03:00+0000".data,
   "4sMM2LxV07bPJzwf,2018-12-08T21:30:00+0000".data]

/-- Data lines of a sorted log on which the key with the maximum count (`B`,
twice) is preceded in counter insertion order by a key with a smaller count
(`A`, counted first because the scan runs from the oldest matching record). -/
def tieLines : List Line :=
  ["B,2018-12-09T05:00:00+0000".data,
   "B,2018-12-09T04:00:00+0000".data,
   "A,2018-12-09T03:00:00+0000".data]

/-- Data lines of a sorted log whose oldest line is malformed: the binary
search never probes it and the backward scan stops before reaching it. -/
def strayLines : List Line :=
  ["GoodCookie,2018-12-09T10:00:00+0000".data,
   "Other,2018-12-08T10:00:00+0000".data,
   "garbage".data]

/-- Data lines where every line either matches the query date or is
malformed, and one line is malformed. -/
def strayReachedLines : List Line :=
  ["A,2018-12-09T10:00:00+0000".data,
   "bad".data]

/-- A single data line dated 2018-12-08. -/
def singleLines : List Line :=
  ["A,2018-12-08T10:00:00+0000".data]

/-! ### Order facts about `dateLt` -/

theorem dateLt_irrefl (a : Date) : dateLt a a = false := by
  obtain ⟨ay, am, ad⟩ := a
  simp [dateLt]

theorem dateLt_ne {a b : Date} (h : dateLt a b = true) : a ≠ b := by
  rintro rfl
  simp [dateLt_irrefl] at h

theorem dateLt_ge_lt {a b c : Date} (h1 : dateLt b a = false) (h2 : dateLt b c = true) :
    dateLt a c = true := by
  obtain ⟨ay, am, ad⟩ := a
  obtain ⟨by1, bm, bd⟩ := b
  obtain ⟨cy, cm, cd⟩ := c
  simp [dateLt] at h1 h2 ⊢
  omega

theorem dateLt_ge_ge {a b c : Date} (h1 : dateLt a b = false) (h2 : dateLt b c = false) :
    dateLt a c = false := by
  obtain ⟨ay, am, ad⟩ := a
  obtain ⟨by1, bm, bd⟩ := b
  obtain ⟨cy, cm, cd⟩ := c
  simp [dateLt] at h1 h2 ⊢
  omega

theorem dateLt_ge_ge_ne {a b c : Date} (h1 : dateLt a b = false) (h2 : dateLt b c = false)
    (h3 : b ≠ c) : a ≠ c := by
  obtain ⟨ay, am, ad⟩ := a
  obtain ⟨by1, bm, bd⟩ := b
  obtain ⟨cy, cm, cd⟩ := c
  simp [dateLt] at h1 h2
  simp [Date.mk.injEq] at h3 ⊢
  omega

/-! ### Facts about `Counter` operations -/

theorem counterGet_incr (c : Counter) (k0 k : Line) :
    counterGet (incr c k0) k = counterGet c k + (if k0 = k then 1 else 0) := by
  induction c with
  | nil =>
    by_cases h : k0 = k <;> simp [incr, counterGet, h]
  | cons e rest ih =>
    obtain ⟨k1, v⟩ := e
    by_cases h1 : k1 = k0
    · subst h1
      by_cases h2 : k1 = k <;> simp [incr, counterGet, h2, ih]
    · by_cases h2 : k1 = k
      · subst h2
        have hne : ¬ k0 = k1 := fun h => h1 h.symm
        simp [incr, counterGet, h1, hne]
      · simp [incr, counterGet, h1, h2, ih]

theorem counterGet_pos_of_mem {c : Counter} {k : Line}
    (hpos : ∀ e ∈ c, 1 ≤ e.2) (hmem : k ∈ c.map Prod.fst) : 1 ≤ counterGet c k := by
  induction c with
  | nil => simp at hmem
  | cons e rest ih =>
    obtain ⟨k1, v⟩ := e
    by_cases h : k1 = k
    · subst h
      simpa [counterGet] using hpos (k1, v) (by simp)
    · simp [counterGet, h]
      have hmem1 : k ∈ rest.map Prod.fst := by
        rcases (by simpa using hmem) with h1 | h1
        · exact absurd h1.symm h
        · simpa using h1
      exact ih (fun e he => hpos e (List.mem_cons_of_mem _ he)) hmem1

theorem counterGet_eq_of_mem {c : Counter} {k : Line} {v : Nat}
    (hnd : (c.map Prod.fst).Nodup) (hmem : (k, v) ∈ c) : counterGet c k = v := by
  induction c with
  | nil => simp at hmem
  | cons e rest ih =>
    obtain ⟨k1, v1⟩ := e
    rw [List.map_cons, List.nodup_cons] at hnd
    rcases List.mem_cons.mp hmem with h | h
    · obtain ⟨rfl, rfl⟩ : k = k1 ∧ v = v1 := by simpa using h
      simp [counterGet]
    · have hk : k1 ≠ k := by
        intro heq
        subst heq
        exact hnd.1 (List.mem_map.mpr ⟨(k1, v), h, rfl⟩)
      simp only [counterGet, hk, if_false]
      exact ih hnd.2 h

theorem mem_map_fst_incr {c : Counter} {k k2 : Line} :
    k2 ∈ (incr c k).map Prod.fst ↔ k2 ∈ c.map Prod.fst ∨ k2 = k := by
  induction c with
  | nil => simp [incr]
  | cons e rest ih =>
    obtain ⟨k1, v⟩ := e
    by_cases h : k1 = k
    · subst h
      simp [incr]
      tauto
    · simp [incr, h, ih]
      tauto

theorem incr_nodup {c : Counter} {k : Line} (hnd : (c.map Prod.fst).Nodup) :
    ((incr c k).map Prod.fst).Nodup := by
  induction c with
  | nil => simp [incr]
  | cons e rest ih =>
    obtain ⟨k1, v⟩ := e
    rw [List.map_cons, List.nodup_cons] at hnd
    by_cases h : k1 = k
    · subst h
      simp only [incr]
      rw [if_pos trivial]
      rw [List.map_cons, List.nodup_cons]
      exact ⟨hnd.1, hnd.2⟩
    · simp only [incr, h, if_false, List.map_cons, List.nodup_cons]
      refine ⟨fun hm => ?_, ih hnd.2⟩
      rcases mem_map_fst_incr.mp hm with h1 | h1
      · exact hnd.1 h1
      · exact h h1

theorem incr_pos {c : Counter} {k : Line} (hpos : ∀ e ∈ c, 1 ≤ e.2) :
    ∀ e ∈ incr c k, 1 ≤ e.2 := by
  induction c with
  | nil => simp [incr]
  | cons e rest ih =>
    obtain ⟨k1, v⟩ := e
    by_cases h : k1 = k
    · intro e2 he2
      simp only [incr, h, if_true] at he2
      rcases List.mem_cons.mp he2 with h2 | h2
      · subst h2; simp
      · exact hpos _ (List.mem_cons_of_mem _ h2)
    · intro e2 he2
      simp only [incr, h, if_false] at he2
      rcases List.mem_cons.mp he2 with h2 | h2
      · subst h2; exact hpos _ (by simp)
      · exact ih (fun e3 he3 => hpos _ (List.mem_cons_of_mem _ he3)) _ h2

theorem most_common1_max {c : Counter} {kv : Line × Nat}
    (h : most_common1 c = some kv) : ∀ e ∈ c, e.2 ≤ kv.2 := by
  match c with
  | [] => simp [most_common1] at h
  | e0 :: rest =>
    simp only [most_common1, Option.some.injEq] at h
    subst h
    have key : ∀ (l : List (Line × Nat)) (a : Line × Nat),
        a.2 ≤ (l.foldl (fun acc x => if x.2 > acc.2 then x else acc) a).2 ∧
        ∀ e ∈ l, e.2 ≤ (l.foldl (fun acc x => if x.2 > acc.2 then x else acc) a).2 := by
      intro l
      induction l with
      | nil => simp
      | cons b t ih =>
        intro a
        simp only [List.foldl_cons]
        constructor
        · by_cases hb : b.2 > a.2
          · simp only [hb, if_true]
            exact Nat.le_trans (Nat.le_of_lt hb) (ih b).1
          · simp only [hb, if_false]
            exact (ih a).1
        · intro e he
          rcases List.mem_cons.mp he with h2 | h2
          · subst h2
            by_cases hb : e.2 > a.2
            · simp only [hb, if_true]; exact (ih e).1
            · simp only [hb, if_false]
              exact Nat.le_trans (Nat.le_of_not_lt hb) (ih a).1
          · by_cases hb : b.2 > a.2 <;> simp only [hb, if_true, if_false]
            · exact (ih b).2 e h2
            · exact (ih a).2 e h2
    intro e he
    rcases List.mem_cons.mp he with h2 | h2
    · subst h2; exact (key rest e).1
    · exact (key rest e0).2 e h2

theorem most_common1_isSome {c : Counter} (h : c ≠ []) : (most_common1 c).isSome = true := by
  match c with
  | [] => exact absurd rfl h
  | e :: rest => simp [most_common1]

/-! ### The printing loop emits the longest max-count prefix -/

theorem printLoop_takeWhile (full : Counter) (high : Nat) :
    ∀ rest : Counter, (∀ e ∈ rest, counterGet full e.1 = e.2) →
      printLoop full high rest = (rest.takeWhile fun e => decide (e.2 = high)).map Prod.fst := by
  intro rest
  induction rest with
  | nil => simp [printLoop]
  | cons e t ih =>
    intro hlook
    obtain ⟨k, v⟩ := e
    have hk : counterGet full k = v := hlook (k, v) (by simp)
    by_cases hv : v = high
    · have h1 : printLoop full high ((k, v) :: t) = k :: printLoop full high t := by
        simp [printLoop, hk, hv]
      rw [h1, ih (fun e2 he2 => hlook e2 (List.mem_cons_of_mem _ he2)), List.takeWhile_cons]
      simp [hv]
    · have h1 : printLoop full high ((k, v) :: t) = [] := by
        simp [printLoop, hk, hv]
      rw [h1, List.takeWhile_cons]
      simp [hv]

/-! ### List index helpers -/

theorem getD_mem {l : List α} {j : Nat} (h : j < l.length) (d : α) : l.getD j d ∈ l := by
  rw [List.getD_eq_getElem?_getD, List.getElem?_eq_getElem h, Option.getD_some]
  exact List.getElem_mem h

theorem isSome_eq_some_getD {o : Option α} (h : o.isSome = true) (d : α) :
    o = some (o.getD d) := by
  cases o with
  | none => simp at h
  | some v => rfl

theorem countP_index (l : List α) (d : α) (p : α → Bool) :
    l.countP p = (List.range l.length).countP fun j => p (l.getD j d) := by
  induction l with
  | nil => simp
  | cons a t ih =>
    rw [List.countP_cons, ih, List.length_cons, List.range_succ_eq_map, List.countP_cons,
      List.countP_map]
    simp [Function.comp_def]

theorem countP_range'_split (f : Nat → Bool) (a b c : Nat) (h : b ≤ c) :
    (List.range' a c).countP f =
      (List.range' a b).countP f + (List.range' (a + b) (c - b)).countP f := by
  have h1 : List.range' a b ++ List.range' (a + b) (c - b) = List.range' a c := by
    rw [List.range'_append_1]
    congr 1
    omega
  rw [← h1, List.countP_append]

theorem countP_range'_zero (f : Nat → Bool) (a b : Nat)
    (h : ∀ j, a ≤ j → j < a + b → f j = false) : (List.range' a b).countP f = 0 := by
  rw [List.countP_eq_zero]
  intro j hj
  have := List.mem_range'_1.mp hj
  simp [h j this.1 this.2]

/-! ### The sortedness precondition, index-wise -/

theorem sortedDescB_index {ds : List Date} (hs : sortedDescB ds = true) :
    ∀ p q, p ≤ q → q < ds.length →
      dateLt (ds.getD p default) (ds.getD q default) = false := by
  induction ds with
  | nil =>
    intro p q hpq hq
    simp at hq
  | cons d rest ih =>
    simp only [sortedDescB, Bool.and_eq_true, List.all_eq_true] at hs
    intro p q hpq hq
    match p, q with
    | 0, 0 => simpa using dateLt_irrefl d
    | 0, q1 + 1 =>
      have hm : rest.getD q1 default ∈ rest := getD_mem (by simpa using hq) _
      have := hs.1 _ hm
      simpa using this
    | p1 + 1, 0 => omega
    | p1 + 1, q1 + 1 =>
      have := ih hs.2 p1 q1 (by omega) (by simpa using hq)
      simpa using this

/-! ### Specification of the binary search loop -/

/-- Date assigned to index `j` by the bisect key function (meaningful when
the key parses). -/
def keyDate (a : List Line) (j : Nat) : Date := (bisectKey (a.getD j [])).getD default

theorem bisectGoF_congr (a : List Line) (x : Date) :
    ∀ (f1 f2 lo hi : Nat), hi - lo ≤ f1 → hi - lo ≤ f2 →
      bisectGoF a x f1 lo hi = bisectGoF a x f2 lo hi := by
  intro f1
  induction f1 with
  | zero =>
    intro f2 lo hi h1 h2
    cases f2 with
    | zero => rfl
    | succ f2 =>
      simp only [bisectGoF]
      rw [if_neg (by omega)]
  | succ f1 ih =>
    intro f2 lo hi h1 h2
    cases f2 with
    | zero =>
      simp only [bisectGoF]
      rw [if_neg (by omega)]
    | succ f2 =>
      by_cases h : lo < hi
      · cases hbk : bisectKey (a.getD ((lo + hi) / 2) []) with
        | none => simp only [bisectGoF, hbk, if_pos h]
        | some dmid =>
          simp only [bisectGoF, hbk, if_pos h]
          by_cases hlt : dateLt dmid x = true
          · rw [if_pos hlt, if_pos hlt]
            exact ih f2 ((lo + hi) / 2 + 1) hi (by omega) (by omega)
          · rw [if_neg hlt, if_neg hlt]
            exact ih f2 lo ((lo + hi) / 2) (by omega) (by omega)
      · simp only [bisectGoF]
        rw [if_neg h, if_neg h]

theorem bisectGo_step_none {a : List Line} {x : Date} {lo hi : Nat} (h : lo < hi)
    (hbk : bisectKey (a.getD ((lo + hi) / 2) []) = none) :
    bisectGo a x lo hi = none := by
  rw [bisectGo, show hi - lo = (hi - lo - 1) + 1 by omega]
  simp only [bisectGoF, hbk, if_pos h]

theorem bisectGo_step_lt {a : List Line} {x : Date} {lo hi : Nat} {dmid : Date} (h : lo < hi)
    (hbk : bisectKey (a.getD ((lo + hi) / 2) []) = some dmid)
    (hlt : dateLt dmid x = true) :
    bisectGo a x lo hi = bisectGo a x ((lo + hi) / 2 + 1) hi := by
  rw [bisectGo, bisectGo, show hi - lo = (hi - lo - 1) + 1 by omega]
  simp only [bisectGoF, hbk, if_pos h]
  rw [if_pos hlt]
  exact bisectGoF_congr a x (hi - lo - 1) (hi - ((lo + hi) / 2 + 1)) ((lo + hi) / 2 + 1) hi
    (by omega) (by omega)

theorem bisectGo_step_ge {a : List Line} {x : Date} {lo hi : Nat} {dmid : Date} (h : lo < hi)
    (hbk : bisectKey (a.getD ((lo + hi) / 2) []) = some dmid)
    (hlt : dateLt dmid x = false) :
    bisectGo a x lo hi = bisectGo a x lo ((lo + hi) / 2) := by
  rw [bisectGo, bisectGo, show hi - lo = (hi - lo - 1) + 1 by omega]
  simp only [bisectGoF, hbk, if_pos h]
  rw [if_neg (by simp [hlt])]
  exact bisectGoF_congr a x (hi - lo - 1) ((lo + hi) / 2 - lo) lo ((lo + hi) / 2)
    (by omega) (by omega)

theorem bisectGo_stop {a : List Line} {x : Date} {lo hi : Nat} (h : ¬ lo < hi) :
    bisectGo a x lo hi = some lo := by
  rw [bisectGo, show hi - lo = 0 by omega]
  rfl

theorem bisectGo_bounds (a : List Line) (x : Date) :
    ∀ (fuel lo hi i : Nat), hi - lo ≤ fuel → lo ≤ hi →
      bisectGo a x lo hi = some i → lo ≤ i ∧ i ≤ hi := by
  intro fuel
  induction fuel with
  | zero =>
    intro lo hi i hf hlh heq
    rw [bisectGo_stop (by omega)] at heq
    cases heq
    omega
  | succ f ih =>
    intro lo hi i hf hlh heq
    by_cases h : lo < hi
    · cases hbk : bisectKey (a.getD ((lo + hi) / 2) []) with
      | none => rw [bisectGo_step_none h hbk] at heq; cases heq
      | some dmid =>
        by_cases hlt : dateLt dmid x = true
        · rw [bisectGo_step_lt h hbk hlt] at heq
          have := ih ((lo + hi) / 2 + 1) hi i (by omega) (by omega) heq
          omega
        · rw [bisectGo_step_ge h hbk (by simpa using hlt)] at heq
          have := ih lo ((lo + hi) / 2) i (by omega) (by omega) heq
          omega
    · rw [bisectGo_stop h] at heq
      cases heq
      omega

theorem bisectGo_total (a : List Line) (x : Date)
    (hk : ∀ j, j < a.length → (bisectKey (a.getD j [])).isSome = true) :
    ∀ (fuel lo hi : Nat), hi - lo ≤ fuel → lo ≤ hi → hi ≤ a.length →
      ∃ i, bisectGo a x lo hi = some i ∧ lo ≤ i ∧ i ≤ hi := by
  intro fuel
  induction fuel with
  | zero =>
    intro lo hi hf hlh hha
    refine ⟨lo, ?_, le_refl _, by omega⟩
    exact bisectGo_stop (by omega)
  | succ f ih =>
    intro lo hi hf hlh hha
    by_cases h : lo < hi
    · have hmid : (lo + hi) / 2 < a.length := by omega
      have hbk : bisectKey (a.getD ((lo + hi) / 2) []) = some (keyDate a ((lo + hi) / 2)) :=
        isSome_eq_some_getD (hk _ hmid) default
      by_cases hlt : dateLt (keyDate a ((lo + hi) / 2)) x = true
      · obtain ⟨i, hi1, hi2, hi3⟩ := ih ((lo + hi) / 2 + 1) hi (by omega) (by omega) hha
        refine ⟨i, ?_, by omega, hi3⟩
        rw [bisectGo_step_lt h hbk hlt]
        exact hi1
      · obtain ⟨i, hi1, hi2, hi3⟩ := ih lo ((lo + hi) / 2) (by omega) (by omega) (by omega)
        refine ⟨i, ?_, hi2, by omega⟩
        rw [bisectGo_step_ge h hbk (by simpa using hlt)]
        exact hi1
    · exact ⟨lo, bisectGo_stop h, le_refl _, hlh⟩

theorem bisectGo_sorted (a : List Line) (x : Date)
    (hk : ∀ j, j < a.length → (bisectKey (a.getD j [])).isSome = true)
    (hasc : ∀ p q, p ≤ q → q < a.length → dateLt (keyDate a q) (keyDate a p) = false) :
    ∀ (fuel lo hi : Nat), hi - lo ≤ fuel → lo ≤ hi → hi ≤ a.length →
      ∃ i, bisectGo a x lo hi = some i ∧ lo ≤ i ∧ i ≤ hi ∧
        (∀ j, lo ≤ j → j < i → dateLt (keyDate a j) x = true) ∧
        (∀ j, i ≤ j → j < hi → dateLt (keyDate a j) x = false) := by
  intro fuel
  induction fuel with
  | zero =>
    intro lo hi hf hlh hha
    exact ⟨lo, bisectGo_stop (by omega), le_refl _, by omega, by omega, by omega⟩
  | succ f ih =>
    intro lo hi hf hlh hha
    by_cases h : lo < hi
    · have hmid : (lo + hi) / 2 < a.length := by omega
      have hbk : bisectKey (a.getD ((lo + hi) / 2) []) = some (keyDate a ((lo + hi) / 2)) :=
        isSome_eq_some_getD (hk _ hmid) default
      by_cases hlt : dateLt (keyDate a ((lo + hi) / 2)) x = true
      · obtain ⟨i, hi1, hi2, hi3, hlow, hhigh⟩ :=
          ih ((lo + hi) / 2 + 1) hi (by omega) (by omega) hha
        refine ⟨i, ?_, by omega, hi3, ?_, hhigh⟩
        · rw [bisectGo_step_lt h hbk hlt]
          exact hi1
        · intro j hj1 hj2
          by_cases hj3 : (lo + hi) / 2 + 1 ≤ j
          · exact hlow j hj3 hj2
          · exact dateLt_ge_lt (hasc j ((lo + hi) / 2) (by omega) hmid) hlt
      · obtain ⟨i, hi1, hi2, hi3, hlow, hhigh⟩ :=
          ih lo ((lo + hi) / 2) (by omega) (by omega) (by omega)
        refine ⟨i, ?_, hi2, by omega, hlow, ?_⟩
        · rw [bisectGo_step_ge h hbk (by simpa using hlt)]
          exact hi1
        · intro j hj1 hj2
          by_cases hj3 : j < (lo + hi) / 2
          · exact hhigh j hj1 hj3
          · have hx : dateLt (keyDate a ((lo + hi) / 2)) x = false := by
              simpa using hlt
            exact dateLt_ge_ge (hasc ((lo + hi) / 2) j (by omega) (by omega)) hx
    · exact ⟨lo, bisectGo_stop h, le_refl _, hlh, by omega, by omega⟩

theorem bisectGo_no_lt (a : List Line) (x : Date)
    (hnl : ∀ j, j < a.length → ∀ d, bisectKey (a.getD j []) = some d → dateLt d x = false) :
    ∀ (fuel lo hi : Nat), hi - lo ≤ fuel → hi ≤ a.length →
      bisectGo a x lo hi = none ∨ bisectGo a x lo hi = some lo := by
  intro fuel
  induction fuel with
  | zero =>
    intro lo hi hf hha
    by_cases h : lo < hi
    · omega
    · right
      exact bisectGo_stop h
  | succ f ih =>
    intro lo hi hf hha
    by_cases h : lo < hi
    · cases hbk : bisectKey (a.getD ((lo + hi) / 2) []) with
      | none =>
        left
        exact bisectGo_step_none h hbk
      | some dmid =>
        have hd : dateLt dmid x = false := hnl _ (by omega) _ hbk
        rw [bisectGo_step_ge h hbk hd]
        exact ih lo ((lo + hi) / 2) (by omega) (by omega)
    · right
      exact bisectGo_stop h

/-! ### Specification of the backward scan loop -/

theorem scanFrom_spec (lines : List Line) (x : Date) :
    ∀ (i : Nat) (seen : Counter),
      (∀ j, j ≤ i → (scanParse (lines.getD j [])).isSome = true) →
      ∃ c, scanFrom lines x i seen = some c ∧
        stopAt lines x i ≤ i + 1 ∧
        (∀ j, stopAt lines x i ≤ j → j ≤ i → scanMatches lines x j = true) ∧
        (0 < stopAt lines x i → scanMatches lines x (stopAt lines x i - 1) = false) ∧
        ∀ k, counterGet c k =
          counterGet seen k +
            cntRange lines x k (stopAt lines x i) (i + 1 - stopAt lines x i) := by
  intro i
  induction i with
  | zero =>
    intro seen hw
    obtain ⟨⟨k0, d0⟩, hp⟩ := Option.isSome_iff_exists.mp (hw 0 (le_refl 0))
    by_cases hxd : x = d0
    · subst hxd
      have hm : scanMatches lines x 0 = true := by
        simp only [scanMatches, hp]
        simp
      have hstop : stopAt lines x 0 = 0 := by simp [stopAt, hm]
      refine ⟨incr seen k0, by simp only [scanFrom, hp]; simp, by omega, ?_, by omega, ?_⟩
      · intro j hj1 hj2
        have : j = 0 := by omega
        subst this
        exact hm
      · intro k
        rw [counterGet_incr, hstop]
        have hc : cntRange lines x k 0 1 = if k0 = k then 1 else 0 := by
          simp only [cntRange, List.range'_one, List.countP_cons, List.countP_nil, hp,
            Nat.zero_add]
          by_cases hk : k0 = k
          · subst hk
            simp
          · simp [hk]
        rw [hc]
    · have hm : scanMatches lines x 0 = false := by
        simp only [scanMatches, hp, decide_eq_false_iff_not]
        exact fun h => hxd h.symm
      have hstop : stopAt lines x 0 = 1 := by simp [stopAt, hm]
      refine ⟨seen, by simp only [scanFrom, hp]; simp [hxd], by omega, ?_, ?_, ?_⟩
      · intro j hj1 hj2
        omega
      · intro h0
        rw [hstop]
        exact hm
      · intro k
        rw [hstop]
        simp [cntRange]
  | succ i ih =>
    intro seen hw
    obtain ⟨⟨k0, d0⟩, hp⟩ := Option.isSome_iff_exists.mp (hw (i + 1) (le_refl _))
    by_cases hxd : x = d0
    · subst hxd
      have hm : scanMatches lines x (i + 1) = true := by
        simp only [scanMatches, hp]
        simp
      have hstop : stopAt lines x (i + 1) = stopAt lines x i := by simp [stopAt, hm]
      have hrun : scanFrom lines x (i + 1) seen = scanFrom lines x i (incr seen k0) := by
        simp only [scanFrom, hp]
        simp
      obtain ⟨c, hc1, hc2, hc3, hc4, hc5⟩ := ih (incr seen k0) (fun j hj => hw j (by omega))
      refine ⟨c, by rw [hrun]; exact hc1, by omega, ?_, ?_, ?_⟩
      · intro j hj1 hj2
        rw [hstop] at hj1
        by_cases hj3 : j ≤ i
        · exact hc3 j hj1 hj3
        · have : j = i + 1 := by omega
          subst this
          exact hm
      · intro h0
        rw [hstop] at h0 ⊢
        exact hc4 h0
      · intro k
        have hthis := hc5 k
        rw [counterGet_incr] at hthis
        rw [hstop]
        have hsplit : cntRange lines x k (stopAt lines x i) (i + 1 + 1 - stopAt lines x i) =
            cntRange lines x k (stopAt lines x i) (i + 1 - stopAt lines x i) +
              (if k0 = k then 1 else 0) := by
          have h2 : i + 1 + 1 - stopAt lines x i = (i + 1 - stopAt lines x i) + 1 := by omega
          rw [cntRange, h2, List.range'_1_concat, List.countP_append]
          have h3 : stopAt lines x i + (i + 1 - stopAt lines x i) = i + 1 := by omega
          rw [h3]
          congr 1
          simp only [List.countP_cons, List.countP_nil, hp, Nat.zero_add]
          by_cases hk : k0 = k
          · subst hk
            simp
          · simp [hk]
        omega
    · have hm : scanMatches lines x (i + 1) = false := by
        simp only [scanMatches, hp, decide_eq_false_iff_not]
        exact fun h => hxd h.symm
      have hstop : stopAt lines x (i + 1) = i + 2 := by simp [stopAt, hm]
      refine ⟨seen, by simp only [scanFrom, hp]; simp [hxd], by omega, ?_, ?_, ?_⟩
      · intro j hj1 hj2
        rw [hstop] at hj1
        omega
      · intro h0
        rw [hstop]
        simpa using hm
      · intro k
        rw [hstop]
        simp [cntRange]

theorem scanFrom_inv (lines : List Line) (x : Date) :
    ∀ (i : Nat) (seen c : Counter), scanFrom lines x i seen = some c →
      ((seen.map Prod.fst).Nodup → (c.map Prod.fst).Nodup) ∧
      ((∀ e ∈ seen, 1 ≤ e.2) → ∀ e ∈ c, 1 ≤ e.2) := by
  intro i
  induction i with
  | zero =>
    intro seen c heq
    cases hp : scanParse (lines.getD 0 []) with
    | none =>
      simp only [scanFrom, hp] at heq
      cases heq
    | some kd =>
      obtain ⟨k0, d0⟩ := kd
      simp only [scanFrom, hp] at heq
      by_cases hxd : x = d0
      · subst hxd
        have : incr seen k0 = c := by simpa using heq
        subst this
        exact ⟨incr_nodup, fun hpos => incr_pos hpos⟩
      · have : seen = c := by simpa [hxd] using heq
        subst this
        exact ⟨id, id⟩
  | succ i ih =>
    intro seen c heq
    cases hp : scanParse (lines.getD (i + 1) []) with
    | none =>
      simp only [scanFrom, hp] at heq
      cases heq
    | some kd =>
      obtain ⟨k0, d0⟩ := kd
      simp only [scanFrom, hp] at heq
      by_cases hxd : x = d0
      · subst hxd
        have hrec : scanFrom lines x i (incr seen k0) = some c := by
          simpa using heq
        obtain ⟨h1, h2⟩ := ih (incr seen k0) c hrec
        exact ⟨fun hnd => h1 (incr_nodup hnd), fun hpos => h2 (incr_pos hpos)⟩
      · have : seen = c := by simpa [hxd] using heq
        subst this
        exact ⟨id, id⟩

theorem scanFrom_none (lines : List Line) (x : Date) :
    ∀ (i : Nat) (seen : Counter),
      (∀ j, j ≤ i → scanParse (lines.getD j []) = none ∨
        ∃ k, scanParse (lines.getD j []) = some (k, x)) →
      (∃ j, j ≤ i ∧ scanParse (lines.getD j []) = none) →
      scanFrom lines x i seen = none := by
  intro i
  induction i with
  | zero =>
    intro seen hall hbad
    obtain ⟨j, hj, hn⟩ := hbad
    have : j = 0 := by omega
    subst this
    simp only [scanFrom, hn]
  | succ i ih =>
    intro seen hall hbad
    cases hp : scanParse (lines.getD (i + 1) []) with
    | none => simp only [scanFrom, hp]
    | some kd =>
      obtain ⟨k0, d0⟩ := kd
      have hd : d0 = x := by
        rcases hall (i + 1) (le_refl _) with h | ⟨k, h⟩
        · rw [hp] at h
          cases h
        · rw [hp] at h
          cases h
          rfl
      rw [hd] at hp
      have hrec : scanFrom lines x (i + 1) seen = scanFrom lines x i (incr seen k0) := by
        simp only [scanFrom, hp]
        simp
      rw [hrec]
      apply ih
      · intro j hj
        exact hall j (by omega)
      · obtain ⟨j, hj, hn⟩ := hbad
        refine ⟨j, ?_, hn⟩
        by_cases hj1 : j = i + 1
        · subst hj1
          rw [hp] at hn
          cases hn
        · omega

/-! ### Well-formed lines -/

theorem wf_parts {l : Line} (h : wfLineB l = true) :
    ∃ k, scanParse l = some (k, lineDate l) ∧ bisectKey l = some (lineDate l) := by
  unfold wfLineB at h
  cases hs : scanParse l with
  | none => rw [hs] at h; simp at h
  | some kd =>
    obtain ⟨k, d⟩ := kd
    cases hb : bisectKey l with
    | none => rw [hs, hb] at h; simp at h
    | some d1 =>
      rw [hs, hb] at h
      simp only [decide_eq_true_eq] at h
      subst h
      have hld : lineDate l = d := by simp [lineDate, hs]
      rw [hld]
      exact ⟨k, rfl, rfl⟩

theorem getD_reverse (l : List α) (j : Nat) (h : j < l.length) (d : α) :
    l.reverse.getD j d = l.getD (l.length - 1 - j) d := by
  have h1 : j < l.reverse.length := by simpa using h
  have h2 : l.length - 1 - j < l.length := by omega
  rw [List.getD_eq_getElem?_getD, List.getD_eq_getElem?_getD,
    List.getElem?_eq_getElem h1, List.getElem?_eq_getElem h2]
  simp only [Option.getD_some]
  exact List.getElem_reverse h1

theorem getD_map (l : List α) (f : α → β) (j : Nat) (h : j < l.length) (d : α) (d2 : β) :
    (l.map f).getD j d2 = f (l.getD j d) := by
  have h1 : j < (l.map f).length := by simpa using h
  rw [List.getD_eq_getElem?_getD, List.getD_eq_getElem?_getD,
    List.getElem?_eq_getElem h1, List.getElem?_eq_getElem h]
  simp only [Option.getD_some]
  simp

/-! ### The binary-search-assisted count equals the brute-force count -/

theorem parse_file_counts (header : Line) (lines : List Line) (x : Date)
    (hw : lines.all wfLineB = true)
    (hs : sortedDescB (lines.map lineDate) = true) :
    ∃ c, parse_file (header :: lines) x = some c ∧
      ∀ k, counterGet c k = linearScanCount lines x k := by
  have hwl : ∀ l ∈ lines, wfLineB l = true := by simpa [List.all_eq_true] using hw
  have hwj : ∀ j, j < lines.length → wfLineB (lines.getD j []) = true :=
    fun j hj => hwl _ (getD_mem hj [])
  have hdesc : ∀ p q, p ≤ q → q < lines.length →
      dateLt (lineDate (lines.getD p [])) (lineDate (lines.getD q [])) = false := by
    intro p q hpq hq
    have hres := sortedDescB_index hs p q hpq (by simpa using hq)
    rwa [getD_map lines lineDate p (by omega) [] default,
      getD_map lines lineDate q hq [] default] at hres
  have hps : ∀ j, j < lines.length → (scanParse (lines.getD j [])).isSome = true := by
    intro j hj
    obtain ⟨k, hk, _⟩ := wf_parts (hwj j hj)
    rw [hk]
    rfl
  have hrevlen : lines.reverse.length = lines.length := List.length_reverse lines
  have hkrev : ∀ j, j < lines.reverse.length →
      (bisectKey (lines.reverse.getD j [])).isSome = true := by
    intro j hj
    rw [getD_reverse lines j (by omega) []]
    obtain ⟨k, _, hb⟩ := wf_parts (hwj (lines.length - 1 - j) (by omega))
    rw [hb]
    rfl
  have hkd : ∀ j, j < lines.length →
      keyDate lines.reverse j = lineDate (lines.getD (lines.length - 1 - j) []) := by
    intro j hj
    unfold keyDate
    rw [getD_reverse lines j (by omega) []]
    obtain ⟨k, _, hb⟩ := wf_parts (hwj (lines.length - 1 - j) (by omega))
    rw [hb]
    rfl
  have hasc : ∀ p q, p ≤ q → q < lines.reverse.length →
      dateLt (keyDate lines.reverse q) (keyDate lines.reverse p) = false := by
    intro p q hpq hq
    rw [hkd q (by omega), hkd p (by omega)]
    exact hdesc (lines.length - 1 - q) (lines.length - 1 - p) (by omega) (by omega)
  obtain ⟨idx, hidx, hlo, hhiB, hlow, hhigh⟩ :=
    bisectGo_sorted lines.reverse x hkrev hasc lines.reverse.length 0 lines.reverse.length
      (by omega) (by omega) (le_refl _)
  by_cases hcase : idx < lines.length
  · -- the backward scan runs from index `lines.length - idx - 1`
    obtain ⟨c, hc1, hc2, hc3, hc4, hc5⟩ :=
      scanFrom_spec lines x (lines.length - idx - 1) [] (fun j hj => hps j (by omega))
    have hpf : parse_file (header :: lines) x = some c := by
      simp only [parse_file, hidx]
      rw [if_pos hcase]
      exact hc1
    refine ⟨c, hpf, ?_⟩
    intro k
    have hgex : ∀ i, i ≤ lines.length - idx - 1 →
        dateLt (lineDate (lines.getD i [])) x = false := by
      intro i hile
      have hres := hhigh (lines.length - 1 - i) (by omega) (by omega)
      rwa [hkd (lines.length - 1 - i) (by omega),
        show lines.length - 1 - (lines.length - 1 - i) = i by omega] at hres
    have hltx : ∀ i, lines.length - idx - 1 < i → i < lines.length →
        dateLt (lineDate (lines.getD i [])) x = true := by
      intro i h1 h2
      have hres := hlow (lines.length - 1 - i) (by omega) (by omega)
      rwa [hkd (lines.length - 1 - i) (by omega),
        show lines.length - 1 - (lines.length - 1 - i) = i by omega] at hres
    have hcount := hc5 k
    have hempty : counterGet ([] : Counter) k = 0 := rfl
    rw [hempty, Nat.zero_add, cntRange] at hcount
    have hbrute : linearScanCount lines x k =
        (List.range' 0 lines.length).countP
          fun j => decide (scanParse (lines.getD j []) = some (k, x)) := by
      rw [linearScanCount,
        countP_index lines [] (fun l => decide (scanParse l = some (k, x))),
        List.range_eq_range']
    have hsplit1 := countP_range'_split
      (fun j => decide (scanParse (lines.getD j []) = some (k, x)))
      0 (stopAt lines x (lines.length - idx - 1)) lines.length (by omega)
    simp only [Nat.zero_add] at hsplit1
    have hsplit2 := countP_range'_split
      (fun j => decide (scanParse (lines.getD j []) = some (k, x)))
      (stopAt lines x (lines.length - idx - 1))
      (lines.length - idx - 1 + 1 - stopAt lines x (lines.length - idx - 1))
      (lines.length - stopAt lines x (lines.length - idx - 1)) (by omega)
    rw [show stopAt lines x (lines.length - idx - 1) +
          (lines.length - idx - 1 + 1 - stopAt lines x (lines.length - idx - 1)) =
          lines.length - idx - 1 + 1 by omega,
        show lines.length - stopAt lines x (lines.length - idx - 1) -
          (lines.length - idx - 1 + 1 - stopAt lines x (lines.length - idx - 1)) =
          lines.length - (lines.length - idx - 1 + 1) by omega] at hsplit2
    have hzero1 : (List.range' 0 (stopAt lines x (lines.length - idx - 1))).countP
        (fun j => decide (scanParse (lines.getD j []) = some (k, x))) = 0 := by
      apply countP_range'_zero
      intro j hj0 hjlt
      rw [Nat.zero_add] at hjlt
      have hstop_pos : 0 < stopAt lines x (lines.length - idx - 1) := by omega
      have hm0 := hc4 hstop_pos
      obtain ⟨km, hkm, _⟩ :=
        wf_parts (hwj (stopAt lines x (lines.length - idx - 1) - 1) (by omega))
      have hne : lineDate (lines.getD (stopAt lines x (lines.length - idx - 1) - 1) []) ≠ x := by
        intro he
        simp only [scanMatches, hkm, decide_eq_false_iff_not] at hm0
        exact hm0 he
      obtain ⟨kj, hkj, _⟩ := wf_parts (hwj j (by omega))
      have hjne : lineDate (lines.getD j []) ≠ x :=
        dateLt_ge_ge_ne
          (hdesc j (stopAt lines x (lines.length - idx - 1) - 1) (by omega) (by omega))
          (hgex (stopAt lines x (lines.length - idx - 1) - 1) (by omega)) hne
      simp only [hkj, decide_eq_false_iff_not, Option.some.injEq, Prod.mk.injEq]
      intro hcon
      exact hjne hcon.2
    have hzero2 : (List.range' (lines.length - idx - 1 + 1)
        (lines.length - (lines.length - idx - 1 + 1))).countP
        (fun j => decide (scanParse (lines.getD j []) = some (k, x))) = 0 := by
      apply countP_range'_zero
      intro j hj0 hjlt
      have hjn : j < lines.length := by omega
      obtain ⟨kj, hkj, _⟩ := wf_parts (hwj j hjn)
      have hjne : lineDate (lines.getD j []) ≠ x := dateLt_ne (hltx j (by omega) hjn)
      simp only [hkj, decide_eq_false_iff_not, Option.some.injEq, Prod.mk.injEq]
      intro hcon
      exact hjne hcon.2
    rw [hcount, hbrute]
    omega
  · -- the binary search returned `len(lines)`: the loop body never runs
    have hidxn : idx = lines.length := by omega
    have hpf : parse_file (header :: lines) x = some [] := by
      simp only [parse_file, hidx]
      rw [if_neg (by omega)]
    refine ⟨[], hpf, ?_⟩
    intro k
    have hbrute : linearScanCount lines x k = 0 := by
      rw [linearScanCount, countP_index lines [] (fun l => decide (scanParse l = some (k, x)))]
      rw [List.countP_eq_zero]
      intro j hj
      have hjn : j < lines.length := by simpa using hj
      have hres := hlow (lines.length - 1 - j) (by omega) (by omega)
      rw [hkd (lines.length - 1 - j) (by omega),
        show lines.length - 1 - (lines.length - 1 - j) = j by omega] at hres
      obtain ⟨kj, hkj, _⟩ := wf_parts (hwj j hjn)
      have hjne : lineDate (lines.getD j []) ≠ x := dateLt_ne hres
      simp only [hkj, Bool.not_eq_true, decide_eq_false_iff_not, Option.some.injEq,
        Prod.mk.injEq]
      intro hcon
      exact hjne hcon.2
    rw [hbrute]
    rfl

/-! ### End-to-end helper lemmas -/

theorem scanFrom_break {lines : List Line} {x : Date} {i : Nat} {seen : Counter}
    {k : Line} {d : Date} (hp : scanParse (lines.getD i []) = some (k, d))
    (hne : x ≠ d) : scanFrom lines x i seen = some seen := by
  cases i with
  | zero =>
    simp only [scanFrom, hp]
    simp [hne]
  | succ i1 =>
    simp only [scanFrom, hp]
    simp [hne]

theorem parse_file_inv {fileLines : List Line} {x : Date} {c : Counter}
    (h : parse_file fileLines x = some c) :
    (c.map Prod.fst).Nodup ∧ ∀ e ∈ c, 1 ≤ e.2 := by
  match fileLines with
  | [] => simp [parse_file] at h
  | header :: lines =>
    cases hb : bisectGo lines.reverse x 0 lines.reverse.length with
    | none =>
      simp only [parse_file, hb] at h
      cases h
    | some idx =>
      simp only [parse_file, hb] at h
      by_cases hcase : idx < lines.length
      · rw [if_pos hcase] at h
        obtain ⟨h1, h2⟩ := scanFrom_inv lines x (lines.length - idx - 1) [] c h
        exact ⟨h1 (by simp), h2 (by simp)⟩
      · rw [if_neg hcase] at h
        cases h
        exact ⟨by simp, by simp⟩

theorem counterGet_zero_not_mem {c : Counter} {k : Line}
    (hpos : ∀ e ∈ c, 1 ≤ e.2) (hzero : counterGet c k = 0) : k ∉ c.map Prod.fst := by
  intro hmem
  have := counterGet_pos_of_mem hpos hmem
  omega

theorem runOnLines_empty (header : Line) (lines : List Line) (x : Date)
    (hw : lines.all wfLineB = true)
    (hnm : lines.all (fun l => !decide (lineDate l = x)) = true) :
    runOnLines (header :: lines) x = .emptyResult := by
  have hwl : ∀ l ∈ lines, wfLineB l = true := by simpa [List.all_eq_true] using hw
  have hwj : ∀ j, j < lines.length → wfLineB (lines.getD j []) = true :=
    fun j hj => hwl _ (getD_mem hj [])
  have hnml : ∀ l ∈ lines, lineDate l ≠ x := by
    intro l hl
    have := (List.all_eq_true.mp hnm) l hl
    simpa using this
  have hkrev : ∀ j, j < lines.reverse.length →
      (bisectKey (lines.reverse.getD j [])).isSome = true := by
    intro j hj
    have hjl : j < lines.length := by simpa using hj
    rw [getD_reverse lines j (by omega) []]
    obtain ⟨k, _, hbk⟩ := wf_parts (hwj (lines.length - 1 - j) (by omega))
    rw [hbk]
    rfl
  obtain ⟨idx, hidx, hlo, hhiB⟩ :=
    bisectGo_total lines.reverse x hkrev lines.reverse.length 0 lines.reverse.length
      (by omega) (by omega) (le_refl _)
  have hrevlen : lines.reverse.length = lines.length := List.length_reverse lines
  by_cases hcase : idx < lines.length
  · have hstart : lines.length - idx - 1 < lines.length := by omega
    obtain ⟨k0, hk0, _⟩ := wf_parts (hwj (lines.length - idx - 1) hstart)
    have hne : x ≠ lineDate (lines.getD (lines.length - idx - 1) []) := by
      intro he
      exact hnml _ (getD_mem hstart []) he.symm
    have hscan : scanFrom lines x (lines.length - idx - 1) [] = some [] :=
      scanFrom_break hk0 hne
    have hpf : parse_file (header :: lines) x = some [] := by
      simp only [parse_file, hidx]
      rw [if_pos hcase]
      exact hscan
    simp only [runOnLines, hpf]
    rfl
  · have hpf : parse_file (header :: lines) x = some [] := by
      simp only [parse_file, hidx]
      rw [if_neg hcase]
    simp only [runOnLines, hpf]
    rfl

theorem runOnLines_malformed (header : Line) (lines : List Line) (x : Date)
    (h1 : lines.all (bisectKeyNotLt x) = true)
    (h2 : lines.all (scanNoneOrDate x) = true)
    (h3 : lines.any (fun l => (scanParse l).isNone) = true) :
    runOnLines (header :: lines) x = .parseError := by
  obtain ⟨lbad, hlbad, hbadnone⟩ := by simpa [List.any_eq_true] using h3
  have hbadnone : scanParse lbad = none := by
    cases hsp : scanParse lbad with
    | none => rfl
    | some kd => rw [hsp] at hbadnone; simp at hbadnone
  have hlen_pos : 0 < lines.length := List.length_pos.mpr (by rintro rfl; simp at hlbad)
  have hrevlen : lines.reverse.length = lines.length := List.length_reverse lines
  have hnl : ∀ j, j < lines.reverse.length → ∀ d,
      bisectKey (lines.reverse.getD j []) = some d → dateLt d x = false := by
    intro j hj d hbk
    have hjl : j < lines.length := by simpa using hj
    rw [getD_reverse lines j (by omega) []] at hbk
    have hmem := getD_mem (show lines.length - 1 - j < lines.length by omega) ([] : Line)
    have := (List.all_eq_true.mp h1) _ hmem
    rw [bisectKeyNotLt, hbk] at this
    simpa using this
  have hall2 : ∀ l ∈ lines, scanParse l = none ∨ ∃ k, scanParse l = some (k, x) := by
    intro l hl
    have := (List.all_eq_true.mp h2) l hl
    rw [scanNoneOrDate] at this
    cases hsp : scanParse l with
    | none => exact Or.inl rfl
    | some kd =>
      rw [hsp] at this
      simp only [decide_eq_true_eq] at this
      refine Or.inr ⟨kd.1, ?_⟩
      rw [← this, Prod.mk.eta]
  rcases bisectGo_no_lt lines.reverse x hnl lines.reverse.length 0 lines.reverse.length
      (by omega) (le_refl _) with hb | hb
  · have hpf : parse_file (header :: lines) x = none := by
      simp only [parse_file, hb]
    simp only [runOnLines, hpf]
  · have hscan : scanFrom lines x (lines.length - 0 - 1) [] = none := by
      apply scanFrom_none
      · intro j hj
        exact hall2 _ (getD_mem (by omega) [])
      · obtain ⟨jb, hjb, hjbe⟩ := List.mem_iff_getElem.mp hlbad
        refine ⟨jb, by omega, ?_⟩
        rw [List.getD_eq_getElem?_getD, List.getElem?_eq_getElem hjb, Option.getD_some, hjbe]
        exact hbadnone
    have hpf : parse_file (header :: lines) x = none := by
      simp only [parse_file, hb]
      rw [if_pos (by omega)]
      exact hscan
    simp only [runOnLines, hpf]

theorem runOnLines_success (header : Line) (lines : List Line) (x : Date)
    (hw : lines.all wfLineB = true)
    (hs : sortedDescB (lines.map lineDate) = true)
    (hex : lines.any (fun l => decide (lineDate l = x)) = true) :
    ∃ c kv, parse_file (header :: lines) x = some c ∧
      most_common1 c = some kv ∧
      (∀ e ∈ c, e.2 ≤ kv.2) ∧
      runOnLines (header :: lines) x = .success (printLoop c kv.2 c) ∧
      printLoop c kv.2 c = (c.takeWhile fun e => decide (e.2 = kv.2)).map Prod.fst ∧
      (∀ k, counterGet c k = linearScanCount lines x k) ∧
      (∀ k, linearScanCount lines x k = 0 → k ∉ c.map Prod.fst) := by
  obtain ⟨c, hpf, hcnt⟩ := parse_file_counts header lines x hw hs
  obtain ⟨hnd, hpos⟩ := parse_file_inv hpf
  obtain ⟨lm, hlm, hlmx⟩ := by simpa [List.any_eq_true] using hex
  have hlmx : lineDate lm = x := by simpa using hlmx
  have hwl : ∀ l ∈ lines, wfLineB l = true := by simpa [List.all_eq_true] using hw
  obtain ⟨km, hkm, _⟩ := wf_parts (hwl lm hlm)
  have hbrutepos : 0 < linearScanCount lines x km := by
    rw [linearScanCount]
    rw [List.countP_pos_iff]
    exact ⟨lm, hlm, by rw [hkm, hlmx]; simp⟩
  have hcne : c ≠ [] := by
    intro he
    have := hcnt km
    rw [he] at this
    simp only [counterGet] at this
    omega
  obtain ⟨kv, hmc⟩ := Option.isSome_iff_exists.mp (most_common1_isSome hcne)
  refine ⟨c, kv, hpf, hmc, most_common1_max hmc, ?_, ?_, hcnt, ?_⟩
  · simp only [runOnLines, hpf, hmc]
  · apply printLoop_takeWhile
    intro e he
    exact counterGet_eq_of_mem hnd (by simpa using he)
  · intro k hk0
    have := hcnt k
    rw [hk0] at this
    exact counterGet_zero_not_mem hpos this

/-! ### Claim theorems -/

/-- C1: for every log file whose data lines are all well-formed and sorted by
timestamp descending, the table produced by `parse_file` (binary search on
the reversed line list followed by a backward scan) maps each key to exactly
the number of data lines with that key whose date equals the query date,
i.e. it agrees with a full unconditional linear scan filtered to that
date. -/
theorem C1_bisect_scan_equals_linear_scan (header : Line) (lines : List Line) (x : Date)
    (hw : lines.all wfLineB = true)
    (hs : sortedDescB (lines.map lineDate) = true) :
    ∃ c, parse_file (header :: lines) x = some c ∧
      ∀ k, counterGet c k = linearScanCount lines x k :=
  parse_file_counts header lines x hw hs

/-- Witness for C1: the specification's example log, queried at
2018-12-09. -/
theorem C1_bisect_scan_equals_linear_scan_witness :
    exampleLines.all wfLineB = true ∧
    sortedDescB (exampleLines.map lineDate) = true ∧
    ∃ c, parse_file (exampleHeader :: exampleLines) ⟨2018, 12, 9⟩ = some c ∧
      ∀ k, counterGet c k = linearScanCount exampleLines ⟨2018, 12, 9⟩ k :=
  ⟨by decide, by decide,
    C1_bisect_scan_equals_linear_scan exampleHeader exampleLines ⟨2018, 12, 9⟩
      (by decide) (by decide)⟩

/-- C2 counterexample: on the sorted log `tieLines` (all of 2018-12-09), key
`B` attains the maximum count 2, yet the program prints nothing, because the
first key in counter insertion order (`A`, counted first as the oldest
matching record) has a smaller count and the print loop stops there.  Hence
the set of printed keys is not the set of maximum-count keys. -/
theorem C2_counterexample :
    parse_file (exampleHeader :: tieLines) ⟨2018, 12, 9⟩ =
        some [("A".data, 1), ("B".data, 2)] ∧
    most_common1 [("A".data, 1), ("B".data, 2)] = some ("B".data, 2) ∧
    runOnLines (exampleHeader :: tieLines) ⟨2018, 12, 9⟩ = .success [] :=
  ⟨by decide, by decide, by decide⟩

/-- C2 amended: for every well-formed sorted log with at least one record on
the query date, the run succeeds and prints the longest insertion-order
prefix of the table consisting of maximum-count keys (so every printed key
attains the maximum, but a maximum-count key preceded in insertion order by
a lower-count key is omitted); keys not appearing on that date are absent
from the table entirely. -/
theorem C2_amended_printed_keys (header : Line) (lines : List Line) (x : Date)
    (hw : lines.all wfLineB = true)
    (hs : sortedDescB (lines.map lineDate) = true)
    (hex : lines.any (fun l => decide (lineDate l = x)) = true) :
    ∃ c kv, parse_file (header :: lines) x = some c ∧
      most_common1 c = some kv ∧ (∀ e ∈ c, e.2 ≤ kv.2) ∧
      runOnLines (header :: lines) x = .success (printLoop c kv.2 c) ∧
      printLoop c kv.2 c = (c.takeWhile fun e => decide (e.2 = kv.2)).map Prod.fst ∧
      (∀ k, linearScanCount lines x k = 0 → k ∉ c.map Prod.fst) := by
  obtain ⟨c, kv, h1, h2, h3, h4, h5, _, h7⟩ := runOnLines_success header lines x hw hs hex
  exact ⟨c, kv, h1, h2, h3, h4, h5, h7⟩

/-- Witness for the amended C2: the specification's example log, queried at
2018-12-09. -/
theorem C2_amended_printed_keys_witness :
    exampleLines.all wfLineB = true ∧
    sortedDescB (exampleLines.map lineDate) = true ∧
    exampleLines.any (fun l => decide (lineDate l = (⟨2018, 12, 9⟩ : Date))) = true ∧
    ∃ c kv, parse_file (exampleHeader :: exampleLines) ⟨2018, 12, 9⟩ = some c ∧
      most_common1 c = some kv ∧ (∀ e ∈ c, e.2 ≤ kv.2) ∧
      runOnLines (exampleHeader :: exampleLines) ⟨2018, 12, 9⟩ =
        .success (printLoop c kv.2 c) ∧
      printLoop c kv.2 c = (c.takeWhile fun e => decide (e.2 = kv.2)).map Prod.fst ∧
      (∀ k, linearScanCount exampleLines ⟨2018, 12, 9⟩ k = 0 → k ∉ c.map Prod.fst) :=
  ⟨by decide, by decide, by decide,
    C2_amended_printed_keys exampleHeader exampleLines ⟨2018, 12, 9⟩
      (by decide) (by decide) (by decide)⟩

/-- C3: for every non-empty frequency table with distinct keys, the sequence
of keys printed is the longest prefix of the table's insertion order
consisting of keys whose count equals the maximum count
(`most_common(1)[0][1]`): such keys are emitted in insertion order and
emission stops at the first key whose count is smaller (every count is at
most the maximum, so a differing count is strictly smaller). -/
theorem C3_print_loop_longest_max_run (c : Counter)
    (hne : c ≠ []) (hnd : (c.map Prod.fst).Nodup) :
    ∃ kv, most_common1 c = some kv ∧ (∀ e ∈ c, e.2 ≤ kv.2) ∧
      printLoop c kv.2 c = (c.takeWhile fun e => decide (e.2 = kv.2)).map Prod.fst := by
  obtain ⟨kv, hmc⟩ := Option.isSome_iff_exists.mp (most_common1_isSome hne)
  refine ⟨kv, hmc, most_common1_max hmc, printLoop_takeWhile c kv.2 c ?_⟩
  intro e he
  exact counterGet_eq_of_mem hnd (by simpa using he)

/-- Witness for C3: a table whose first key does not attain the maximum. -/
theorem C3_print_loop_longest_max_run_witness :
    ([("A".data, 1), ("B".data, 2)] : Counter) ≠ [] ∧
    (([("A".data, 1), ("B".data, 2)] : Counter).map Prod.fst).Nodup ∧
    ∃ kv, most_common1 [("A".data, 1), ("B".data, 2)] = some kv ∧
      (∀ e ∈ ([("A".data, 1), ("B".data, 2)] : Counter), e.2 ≤ kv.2) ∧
      printLoop [("A".data, 1), ("B".data, 2)] kv.2 [("A".data, 1), ("B".data, 2)] =
        (([("A".data, 1), ("B".data, 2)] : Counter).takeWhile
          fun e => decide (e.2 = kv.2)).map Prod.fst :=
  ⟨by decide, by decide,
    C3_print_loop_longest_max_run [("A".data, 1), ("B".data, 2)] (by decide) (by decide)⟩

/-- C4: for every well-formed log in which no record's date equals the query
date, the run fails with the fatal `IndexError` of
`counts.most_common(1)[0]` on the empty table (the `EmptyResultError` of the
specification) instead of succeeding with empty output. -/
theorem C4_no_match_fails (header : Line) (lines : List Line) (x : Date)
    (hw : lines.all wfLineB = true)
    (hnm : lines.all (fun l => !decide (lineDate l = x)) = true) :
    runOnLines (header :: lines) x = .emptyResult :=
  runOnLines_empty header lines x hw hnm

/-- Witness for C4: a single record dated 2018-12-08 queried at
2018-12-09. -/
theorem C4_no_match_fails_witness :
    singleLines.all wfLineB = true ∧
    singleLines.all (fun l => !decide (lineDate l = (⟨2018, 12, 9⟩ : Date))) = true ∧
    runOnLines (exampleHeader :: singleLines) ⟨2018, 12, 9⟩ = .emptyResult :=
  ⟨by decide, by decide,
    C4_no_match_fails exampleHeader singleLines ⟨2018, 12, 9⟩ (by decide) (by decide)⟩

/-- C5: for every date argument that `strptime` with format `"%Y-%m-%d"`
rejects, the program exits with code 1 (the `invalidDate` outcome) and
writes to stderr exactly
`Error: Invalid date format '<input>'. Expected a YYYY-MM-DD.` with the
literal user-supplied string interpolated. -/
theorem C5_invalid_date_message (fileLines : List Line) (dateArg : Line)
    (h : parseDateArg dateArg = none) :
    runProgram fileLines dateArg =
      .invalidDate ("Error: Invalid date format '".data ++ dateArg ++
        "'. Expected a YYYY-MM-DD.".data) := by
  simp only [runProgram, h]
  rfl

/-- Witness for C5: the specification's malformed date flag `2018/12/09`. -/
theorem C5_invalid_date_message_witness :
    parseDateArg ("2018/12/09".data) = none ∧
    runProgram (exampleHeader :: exampleLines) ("2018/12/09".data) =
      .invalidDate ("Error: Invalid date format '".data ++ "2018/12/09".data ++
        "'. Expected a YYYY-MM-DD.".data) :=
  ⟨by decide,
    C5_invalid_date_message (exampleHeader :: exampleLines) ("2018/12/09".data) (by decide)⟩

/-- C6 counterexample: `strayLines` contains the malformed data line
`garbage`, yet the run succeeds and prints `GoodCookie`: the binary search
only probes the two well-formed lines and the backward scan stops before
reaching the malformed one, so the claimed "fatal parse error on every
malformed line" does not hold. -/
theorem C6_counterexample :
    scanParse ("garbage".data) = none ∧
    "garbage".data ∈ strayLines ∧
    runOnLines (exampleHeader :: strayLines) ⟨2018, 12, 9⟩ =
      .success ["GoodCookie".data] :=
  ⟨by decide, by decide, by decide⟩

/-- C6 amended: a malformed data line aborts the run with a fatal parse
error (and no output) whenever the program actually examines it; in
particular, when every data line either is malformed or parses with the
query date (and no bisect key parses earlier than the query date, so the
search cannot skip past anything), a single malformed line always aborts
the run. -/
theorem C6_amended_malformed_reached_aborts (header : Line) (lines : List Line) (x : Date)
    (h1 : lines.all (bisectKeyNotLt x) = true)
    (h2 : lines.all (scanNoneOrDate x) = true)
    (h3 : lines.any (fun l => (scanParse l).isNone) = true) :
    runOnLines (header :: lines) x = .parseError :=
  runOnLines_malformed header lines x h1 h2 h3

/-- Witness for the amended C6: a matching record followed by a malformed
line, queried at 2018-12-09. -/
theorem C6_amended_malformed_reached_aborts_witness :
    strayReachedLines.all (bisectKeyNotLt ⟨2018, 12, 9⟩) = true ∧
    strayReachedLines.all (scanNoneOrDate ⟨2018, 12, 9⟩) = true ∧
    strayReachedLines.any (fun l => (scanParse l).isNone) = true ∧
    runOnLines (exampleHeader :: strayReachedLines) ⟨2018, 12, 9⟩ = .parseError :=
  ⟨by decide, by decide, by decide,
    C6_amended_malformed_reached_aborts exampleHeader strayReachedLines ⟨2018, 12, 9⟩
      (by decide) (by decide) (by decide)⟩

/-- C7: when every line from index 0 up to the scan's start index parses,
the backward scan terminates and counts a line's key exactly when its
parsed date equals the target date: all indices from `stopAt` up to the
start index match the target date, the index right below `stopAt` (the
first mismatch encountered, if the scan did not reach index 0) does not
match, and the resulting table counts keys over exactly the indices from
`stopAt` to the start index — no line beyond the first mismatch
contributes. -/
theorem C7_scan_stops_at_first_mismatch (lines : List Line) (x : Date) (i : Nat)
    (hw : (List.range (i + 1)).all (fun j => (scanParse (lines.getD j [])).isSome) = true) :
    ∃ c, scanFrom lines x i [] = some c ∧
      (∀ j, stopAt lines x i ≤ j → j ≤ i → scanMatches lines x j = true) ∧
      (0 < stopAt lines x i → scanMatches lines x (stopAt lines x i - 1) = false) ∧
      ∀ k, counterGet c k =
        cntRange lines x k (stopAt lines x i) (i + 1 - stopAt lines x i) := by
  have hw2 : ∀ j, j ≤ i → (scanParse (lines.getD j [])).isSome = true := by
    intro j hj
    have := (List.all_eq_true.mp hw) j (List.mem_range.mpr (by omega))
    simpa using this
  obtain ⟨c, h1, _, h3, h4, h5⟩ := scanFrom_spec lines x i [] hw2
  refine ⟨c, h1, h3, h4, fun k => ?_⟩
  have hres := h5 k
  rwa [show counterGet ([] : Counter) k = 0 from rfl, Nat.zero_add] at hres

/-- Witness for C7: the example log scanned from its last index for
2018-12-08 (the scan counts the two 2018-12-08 records and stops at the
first 2018-12-09 record). -/
theorem C7_scan_stops_at_first_mismatch_witness :
    (List.range (5 + 1)).all
      (fun j => (scanParse (exampleLines.getD j [])).isSome) = true ∧
    ∃ c, scanFrom exampleLines ⟨2018, 12, 8⟩ 5 [] = some c ∧
      (∀ j, stopAt exampleLines ⟨2018, 12, 8⟩ 5 ≤ j → j ≤ 5 →
        scanMatches exampleLines ⟨2018, 12, 8⟩ j = true) ∧
      (0 < stopAt exampleLines ⟨2018, 12, 8⟩ 5 →
        scanMatches exampleLines ⟨2018, 12, 8⟩
          (stopAt exampleLines ⟨2018, 12, 8⟩ 5 - 1) = false) ∧
      ∀ k, counterGet c k = cntRange exampleLines ⟨2018, 12, 8⟩ k
        (stopAt exampleLines ⟨2018, 12, 8⟩ 5)
        (5 + 1 - stopAt exampleLines ⟨2018, 12, 8⟩ 5) :=
  ⟨by decide, C7_scan_stops_at_first_mismatch exampleLines ⟨2018, 12, 8⟩ 5 (by decide)⟩

/-- C8: the header (first line) of the file is discarded and never
contributes to the binary search, the scan, or the frequency counts: the
whole run is unchanged under replacing the header by any other line,
including one that would parse as a record matching the query date. -/
theorem C8_header_never_contributes (h1 h2 : Line) (lines : List Line) (x : Date) :
    parse_file (h1 :: lines) x = parse_file (h2 :: lines) x ∧
    runOnLines (h1 :: lines) x = runOnLines (h2 :: lines) x := by
  have hp : parse_file (h1 :: lines) x = parse_file (h2 :: lines) x := rfl
  exact ⟨hp, by simp only [runOnLines, hp]⟩

/-- C9: the program is deterministic: two runs on the same file content and
date argument produce the same outcome (same printed keys in the same
order, or the same error). The embedding is a pure function of the file
lines and the date argument, which is exactly this determinism. -/
theorem C9_deterministic (fileLines : List Line) (dateArg : Line) (r1 r2 : RunResult)
    (h1 : r1 = runProgram fileLines dateArg) (h2 : r2 = runProgram fileLines dateArg) :
    r1 = r2 :=
  h1.trans h2.symm

/-- Witness for C9: two runs on the example log at 2018-12-09 both print
exactly `AtY0laUfhglK3lC7` (also checking the specification's expected
output for that scenario). -/
theorem C9_deterministic_witness :
    RunResult.success ["AtY0laUfhglK3lC7".data] =
      runProgram (exampleHeader :: exampleLines) ("2018-12-09".data) ∧
    RunResult.success ["AtY0laUfhglK3lC7".data] =
      runProgram (exampleHeader :: exampleLines) ("2018-12-09".data) ∧
    RunResult.success ["AtY0laUfhglK3lC7".data] =
      RunResult.success ["AtY0laUfhglK3lC7".data] :=
  ⟨by decide, by decide,
    C9_deterministic (exampleHeader :: exampleLines) ("2018-12-09".data) _ _
      (by decide) (by decide)⟩

/-- C10: whenever the binary search on the reversed line list returns an
index `i`, that index is at most `len(lines)`, so the start index
`len(lines) - i - 1` of the backward scan lies in `[-1, len(lines) - 1]`
(as an integer); the scan walks downward from the start index, so every
index it accesses is within bounds.  In particular when the search returns
`len(lines)` the loop `range(-1, -1, -1)` performs zero iterations and the
returned table is empty. -/
theorem C10_start_index_in_bounds (header : Line) (lines : List Line) (x : Date) (i : Nat)
    (hb : bisectGo lines.reverse x 0 lines.reverse.length = some i) :
    i ≤ lines.length ∧
    ((-1 : Int) ≤ (lines.length : Int) - (i : Int) - 1) ∧
    ((lines.length : Int) - (i : Int) - 1 ≤ (lines.length : Int) - 1) ∧
    (i = lines.length → parse_file (header :: lines) x = some []) := by
  have hlen : lines.reverse.length = lines.length := List.length_reverse lines
  have hbounds := bisectGo_bounds lines.reverse x lines.reverse.length 0 lines.reverse.length i
    (by omega) (by omega) hb
  refine ⟨by omega, by omega, by omega, ?_⟩
  intro hin
  simp only [parse_file, hb]
  rw [if_neg (by omega)]

/-- Witness for C10: on a one-line log dated 2018-12-08, the search for
2018-12-09 returns `len(lines) = 1`, the scan runs zero iterations, and the
table is empty. -/
theorem C10_start_index_in_bounds_witness :
    bisectGo singleLines.reverse ⟨2018, 12, 9⟩ 0 singleLines.reverse.length = some 1 ∧
    (1 ≤ singleLines.length ∧
      ((-1 : Int) ≤ (singleLines.length : Int) - (1 : Int) - 1) ∧
      (((singleLines.length : Int) - (1 : Int) - 1) ≤ (singleLines.length : Int) - 1) ∧
      (1 = singleLines.length →
        parse_file (exampleHeader :: singleLines) ⟨2018, 12, 9⟩ = some [])) :=
  ⟨by decide,
    C10_start_index_in_bounds exampleHeader singleLines ⟨2018, 12, 9⟩ 1 (by decide)⟩

end QuantcastLog
